import Mathlib

/-!
Verification of the Honeycomb ABX tool

A shallow embedding, in Lean 4, of the Honeycomb repository: an Android
Binary XML (ABX) to textual-XML decoder together with an offset-based
binary patcher for user-restriction policies.

Modelling conventions:
* Bytes are `Nat` values (< 256 wherever they come from a stream); byte
  streams and Rust `Vec<u8>` buffers are `List Nat`.
* Rust strings are modelled as their UTF-8 byte lists; the decoder's
  UTF-8 validation (`String::from_utf8`) is embedded as an executable
  validator `isValidUtf8`.
* Stateful `&mut self` methods become explicit state-passing functions.
  A fallible method returns `Except AbxError α × St`: the state component
  reflects the mutations performed before an error, as in the source.
* Output written with `write!` is modelled as a list of emitted chunks
  returned by each function (concatenated by the caller, in write order).
  The textual `Display` rendering of IEEE floats is not modelled; a float
  chunk carries the raw bit pattern instead.
* `u32` casts and wrapping byte arithmetic are modelled with explicit
  `% 2^32` / `% 256`.
* The unbounded Rust loops (the adapter's chunk-pulling loops, the
  decoder's token and attribute loops) are embedded with an explicit fuel
  argument that provably dominates the number of iterations the source
  loop can perform, so the fuelled function agrees with the loop.
-/

namespace Honeycomb

/-! ## Buffering seek adapter (`src/seekable_reader.rs`, `SeekableReader`)

State of a `SeekableReader<R>`: the retained `buffer`, the cursor
`position`, the `end_reached` flag, and the bytes the wrapped forward-only
source has not yet delivered (`remaining`).  The wrapped source is
modelled as delivering `min 8192 remaining.length` bytes per `read` call
into the 8 KiB temporary buffer, and `0` exactly when it is exhausted. -/

structure SRState where
  buffer : List Nat
  position : Nat
  remaining : List Nat
  endReached : Bool
deriving Repr, DecidableEq

/-- One iteration of the chunk-pulling loop bodies in `read` / `seek`:
`inner.read` into an 8 KiB buffer; `Ok(0)` sets `end_reached`, `Ok(n)`
appends the delivered bytes to the retained buffer. -/
def pullChunk (s : SRState) : SRState :=
  if s.remaining = [] then { s with endReached := true }
  else { s with buffer := s.buffer ++ s.remaining.take 8192,
                remaining := s.remaining.drop 8192 }

/-- Loop variant for the chunk-pulling loops. -/
def srMeasure (s : SRState) : Nat :=
  s.remaining.length + (if s.endReached then 0 else 1)

/-- The shared buffering loop of `SeekableReader::read` and
`SeekableReader::seek(Start(_))`: pull chunks while the buffer is shorter
than `target` and the source is not exhausted (fuel-indexed; the fuel
`srMeasure s` used by `fillTo` dominates the iteration count). -/
def fillToFuel : Nat → Nat → SRState → SRState
  | 0, _, s => s
  | fuel + 1, target, s =>
    if s.buffer.length < target ∧ s.endReached = false then
      fillToFuel fuel target (pullChunk s)
    else s

def fillTo (target : Nat) (s : SRState) : SRState :=
  fillToFuel (srMeasure s) target s

/-- Embeds `SeekableReader::seek(SeekFrom::Start(p))`: buffer up to `p` bytes,
then set the cursor to `min p buffered_len`. -/
def srSeekStart (p : Nat) (s : SRState) : SRState :=
  let s1 := fillTo p s
  { s1 with position := min p s1.buffer.length }

/-- Embeds `SeekableReader::read` with a caller buffer of size `k`: buffer until
the window `[position, position + k)` is satisfiable or the source is
exhausted, then copy the satisfiable prefix and advance the cursor.
Returns the bytes copied. -/
def srRead (k : Nat) (s : SRState) : List Nat × SRState :=
  let s1 := fillTo (s.position + k) s
  let available := s1.buffer.length - s1.position
  let toCopy := min k available
  ((s1.buffer.drop s1.position).take toCopy,
   { s1 with position := s1.position + toCopy })

lemma pullChunk_append (s : SRState) :
    (pullChunk s).buffer ++ (pullChunk s).remaining = s.buffer ++ s.remaining := by
  unfold pullChunk
  split
  · simp_all
  · simp [List.append_assoc, List.take_append_drop]

lemma pullChunk_endInv (s : SRState) (h : s.endReached = true → s.remaining = []) :
    (pullChunk s).endReached = true → (pullChunk s).remaining = [] := by
  unfold pullChunk
  split
  · simp_all
  · intro he
    simp only at he
    exact absurd (h he) (by assumption)

lemma pullChunk_position (s : SRState) : (pullChunk s).position = s.position := by
  unfold pullChunk; split <;> rfl

lemma srMeasure_pullChunk (s : SRState) (h : s.endReached = false) :
    srMeasure (pullChunk s) < srMeasure s := by
  unfold srMeasure pullChunk
  split
  · simp_all
  · have : s.remaining.length ≠ 0 := by
      simp only [ne_eq, List.length_eq_zero]
      assumption
    simp [h, List.length_drop]
    omega

/-- Master lemma about the buffering loop: it preserves the drained
content and the `end_reached` invariant, never moves the cursor, and
stops only once the buffer covers `target` or the source is exhausted. -/
lemma fillToFuel_spec : ∀ (fuel target : Nat) (s : SRState),
    srMeasure s ≤ fuel → (s.endReached = true → s.remaining = []) →
    (fillToFuel fuel target s).buffer ++ (fillToFuel fuel target s).remaining
        = s.buffer ++ s.remaining ∧
    ((fillToFuel fuel target s).endReached = true →
        (fillToFuel fuel target s).remaining = []) ∧
    (fillToFuel fuel target s).position = s.position ∧
    (target ≤ (fillToFuel fuel target s).buffer.length ∨
        (fillToFuel fuel target s).endReached = true) := by
  intro fuel
  induction fuel with
  | zero =>
    intro target s hm hinv
    have hend : s.endReached = true := by
      unfold srMeasure at hm
      by_contra hc
      simp [Bool.not_eq_true] at hc
      simp [hc] at hm
    refine ⟨rfl, hinv, rfl, Or.inr hend⟩
  | succ fuel ih =>
    intro target s hm hinv
    unfold fillToFuel
    split
    · rename_i hcond
      have hend : s.endReached = false := hcond.2
      have hm' : srMeasure (pullChunk s) ≤ fuel := by
        have := srMeasure_pullChunk s hend
        omega
      have hinv' := pullChunk_endInv s hinv
      obtain ⟨h1, h2, h3, h4⟩ := ih target (pullChunk s) hm' hinv'
      exact ⟨by rw [h1, pullChunk_append], h2, by rw [h3, pullChunk_position], h4⟩
    · rename_i hcond
      refine ⟨rfl, hinv, rfl, ?_⟩
      rcases Decidable.not_and_iff_or_not.mp hcond with h | h
      · exact Or.inl (by omega)
      · exact Or.inr (by simpa [Bool.not_eq_false] using h)

lemma fillTo_spec (target : Nat) (s : SRState)
    (hinv : s.endReached = true → s.remaining = []) :
    (fillTo target s).buffer ++ (fillTo target s).remaining
        = s.buffer ++ s.remaining ∧
    ((fillTo target s).endReached = true → (fillTo target s).remaining = []) ∧
    (fillTo target s).position = s.position ∧
    (target ≤ (fillTo target s).buffer.length ∨
        (fillTo target s).endReached = true) :=
  fillToFuel_spec (srMeasure s) target s (le_refl _) hinv

/-- If the buffer already covers `[p, p + k)`, dropping/taking in the
buffer agrees with dropping/taking in the fully drained source. -/
lemma drop_take_of_append (buf rem : List Nat) (p k : Nat)
    (hlen : p + k ≤ buf.length) :
    (buf.drop p).take k = ((buf ++ rem).drop p).take k := by
  rw [List.drop_append_of_le_length (by omega)]
  rw [List.take_append_of_le_length (by simp [List.length_drop]; omega)]

lemma srSeekStart_eq (p : Nat) (s : SRState) :
    srSeekStart p s
      = { fillTo p s with position := min p (fillTo p s).buffer.length } := rfl

lemma srRead_eq (k : Nat) (s : SRState) :
    srRead k s =
      (((fillTo (s.position + k) s).buffer.drop (fillTo (s.position + k) s).position).take
          (min k ((fillTo (s.position + k) s).buffer.length
            - (fillTo (s.position + k) s).position)),
       { fillTo (s.position + k) s with
          position := (fillTo (s.position + k) s).position
            + min k ((fillTo (s.position + k) s).buffer.length
                - (fillTo (s.position + k) s).position) }) := rfl

/-- Reading `k` bytes from any reachable adapter state whose window fits in the
drained source returns the exact sub-slice starting at the cursor. -/
lemma srRead_fst (src : List Nat) (s : SRState) (k : Nat)
    (hsrc : s.buffer ++ s.remaining = src)
    (hinv : s.endReached = true → s.remaining = [])
    (hlen : s.position + k ≤ src.length) :
    (srRead k s).1 = (src.drop s.position).take k := by
  obtain ⟨b1, b2, b3, b4⟩ := fillTo_spec (s.position + k) s hinv
  have hBsrc : (fillTo (s.position + k) s).buffer
      ++ (fillTo (s.position + k) s).remaining = src := by
    rw [b1, hsrc]
  have hBlen : s.position + k ≤ (fillTo (s.position + k) s).buffer.length := by
    rcases b4 with h | h
    · exact h
    · have h2 := b2 h
      have h3 : (fillTo (s.position + k) s).buffer.length = src.length := by
        rw [← hBsrc, h2]; simp
      omega
  have hcopy : min k ((fillTo (s.position + k) s).buffer.length
      - s.position) = k := by
    omega
  rw [srRead_eq]
  simp only [b3, hcopy]
  rw [← hBsrc]
  exact drop_take_of_append _ _ s.position k hBlen

/-- **C2.** For every forward-only byte source and every offset `p` and
count `k` with `p + k` not exceeding the total length of the source,
seeking the buffering adapter to `Start(p)` and then reading `k` bytes
returns exactly the bytes `[p, p+k)` of the fully drained source: the
adapter behaves as if the whole source were an in-memory buffer. -/
theorem seekable_reader_read_after_seek (src : List Nat) (s : SRState) (p k : Nat)
    (hsrc : s.buffer ++ s.remaining = src)
    (hinv : s.endReached = true → s.remaining = [])
    (hpk : p + k ≤ src.length) :
    (srRead k (srSeekStart p s)).1 = (src.drop p).take k := by
  obtain ⟨a1, a2, a3, a4⟩ := fillTo_spec p s hinv
  have hAsrc : (fillTo p s).buffer ++ (fillTo p s).remaining = src := by
    rw [a1, hsrc]
  have hAlen : p ≤ (fillTo p s).buffer.length := by
    rcases a4 with h | h
    · exact h
    · have h2 : (fillTo p s).remaining = [] := a2 h
      have h3 : (fillTo p s).buffer.length = src.length := by
        rw [← hAsrc, h2]; simp
      omega
  have hmin : min p (fillTo p s).buffer.length = p := min_eq_left hAlen
  rw [srSeekStart_eq, hmin]
  have hres := srRead_fst src { fillTo p s with position := p } k
    (by simpa using hAsrc) (by simpa using a2) (by simpa using hpk)
  simpa using hres

/-- Witness for C2 at a concrete source. -/
theorem seekable_reader_read_after_seek_witness :
    (srRead 3 (srSeekStart 1 (SRState.mk [] 0 [10, 20, 30, 40, 50] false))).1
      = (([10, 20, 30, 40, 50] : List Nat).drop 1).take 3 :=
  seekable_reader_read_after_seek [10, 20, 30, 40, 50]
    (SRState.mk [] 0 [10, 20, 30, 40, 50] false) 1 3 rfl
    (by decide) (by decide)

/-! ## Data model (`src/lib.rs`)

Error type `AbxError`, the `Policy` record, and the protocol constants.
Strings carried by errors stay Lean `String`s; decoded stream strings are
UTF-8 byte lists. -/

inductive AbxError where
  | Io : AbxError
  | InvalidMagicHeader : List Nat → List Nat → AbxError
  | ReadError : String → AbxError
  | InvalidInternedStringIndex : Nat → AbxError
  | UnknownAttributeType : Nat → AbxError
  | ParseError : String → AbxError
deriving Repr, DecidableEq

/-- The `Policy { name, start_offset, end_offset }` record; the name is the UTF-8
byte list of the Rust `String`. -/
structure Policy where
  name : List Nat
  start_offset : Nat
  end_offset : Nat
deriving Repr, DecidableEq

def PROTOCOL_MAGIC_VERSION_0 : List Nat := [0x41, 0x42, 0x58, 0x00]

deriving instance DecidableEq for Except

/-- Combined state of a `BinaryXmlDeserializer` and its `FastDataInput`:
the full underlying byte stream (magic included), the cursor, the
interned-string table, and the decoder's bookkeeping fields.  The output
sink is not part of the state: emitted chunks are returned by each
function instead (see the module comment). -/
structure St where
  input : List Nat
  pos : Nat
  interned : List (List Nat)
  collectPolicies : Bool
  policies : List Policy
  restrictionNodeOffset : Nat
  alreadyReadRestrictionsUser : Bool
deriving Repr, DecidableEq

/-- Big-endian value of a byte list. -/
def beNat (bs : List Nat) : Nat := bs.foldl (fun acc b => acc * 256 + b) 0

/-- Embeds `FastDataInput::read_byte`: `read_exact` of one byte. -/
def readByte (s : St) : Except AbxError Nat × St :=
  match s.input.get? s.pos with
  | some b => (.ok b, { s with pos := s.pos + 1 })
  | none => (.error (.ReadError ("byte")), s)

/-- Embeds `FastDataInput::read_short`: two bytes, big-endian `u16`. -/
def readShort (s : St) : Except AbxError Nat × St :=
  if s.pos + 2 ≤ s.input.length then
    (.ok (beNat ((s.input.drop s.pos).take 2)), { s with pos := s.pos + 2 })
  else (.error (.ReadError ("short")), s)

/-- Embeds `FastDataInput::read_int`: four bytes, big-endian; the raw unsigned
bit pattern is returned and reinterpreted as `i32` where used. -/
def readIntRaw (s : St) : Except AbxError Nat × St :=
  if s.pos + 4 ≤ s.input.length then
    (.ok (beNat ((s.input.drop s.pos).take 4)), { s with pos := s.pos + 4 })
  else (.error (.ReadError ("int")), s)

/-- Embeds `FastDataInput::read_long`: eight bytes, big-endian. -/
def readLongRaw (s : St) : Except AbxError Nat × St :=
  if s.pos + 8 ≤ s.input.length then
    (.ok (beNat ((s.input.drop s.pos).take 8)), { s with pos := s.pos + 8 })
  else (.error (.ReadError ("long")), s)

/-- Embeds `FastDataInput::read_bytes`. -/
def readBytes (length : Nat) (s : St) : Except AbxError (List Nat) × St :=
  if s.pos + length ≤ s.input.length then
    (.ok ((s.input.drop s.pos).take length), { s with pos := s.pos + length })
  else (.error (.ReadError ("bytes")), s)

/-- Is `b` a UTF-8 continuation byte (`0x80..=0xBF`)? -/
def isCont (b : Nat) : Bool := decide (0x80 ≤ b ∧ b ≤ 0xBF)

/-- Executable RFC-3629 UTF-8 validity check, as performed by
`String::from_utf8` (rejects overlong forms, surrogates, > U+10FFFF). -/
def isValidUtf8 : List Nat → Bool
  | [] => true
  | b :: rest =>
    if b ≤ 0x7F then isValidUtf8 rest
    else if 0xC2 ≤ b ∧ b ≤ 0xDF then
      match rest with
      | c1 :: r => isCont c1 && isValidUtf8 r
      | [] => false
    else if b = 0xE0 then
      match rest with
      | c1 :: c2 :: r => decide (0xA0 ≤ c1 ∧ c1 ≤ 0xBF) && isCont c2 && isValidUtf8 r
      | _ => false
    else if 0xE1 ≤ b ∧ b ≤ 0xEC then
      match rest with
      | c1 :: c2 :: r => isCont c1 && isCont c2 && isValidUtf8 r
      | _ => false
    else if b = 0xED then
      match rest with
      | c1 :: c2 :: r => decide (0x80 ≤ c1 ∧ c1 ≤ 0x9F) && isCont c2 && isValidUtf8 r
      | _ => false
    else if 0xEE ≤ b ∧ b ≤ 0xEF then
      match rest with
      | c1 :: c2 :: r => isCont c1 && isCont c2 && isValidUtf8 r
      | _ => false
    else if b = 0xF0 then
      match rest with
      | c1 :: c2 :: c3 :: r =>
        decide (0x90 ≤ c1 ∧ c1 ≤ 0xBF) && isCont c2 && isCont c3 && isValidUtf8 r
      | _ => false
    else if 0xF1 ≤ b ∧ b ≤ 0xF3 then
      match rest with
      | c1 :: c2 :: c3 :: r => isCont c1 && isCont c2 && isCont c3 && isValidUtf8 r
      | _ => false
    else if b = 0xF4 then
      match rest with
      | c1 :: c2 :: c3 :: r =>
        decide (0x80 ≤ c1 ∧ c1 ≤ 0x8F) && isCont c2 && isCont c3 && isValidUtf8 r
      | _ => false
    else false

/-- Embeds `FastDataInput::read_utf`: a 16-bit big-endian length, that many raw
bytes, then UTF-8 validation; invalid encoding is a distinct error from a
short read. -/
def readUtf (s : St) : Except AbxError (List Nat) × St :=
  match readShort s with
  | (.error e, s1) => (.error e, s1)
  | (.ok length, s1) =>
    if s1.pos + length ≤ s1.input.length then
      if isValidUtf8 ((s1.input.drop s1.pos).take length) then
        (.ok ((s1.input.drop s1.pos).take length), { s1 with pos := s1.pos + length })
      else (.error (.ReadError ("UTF string (invalid UTF-8)")),
            { s1 with pos := s1.pos + length })
    else (.error (.ReadError ("UTF string")), s1)

/-- Embeds `FastDataInput::read_interned_utf`: a 16-bit index; `0xFFFF` defines
a new string (read it, append it to the table, return it); any other
value is a back-reference that must resolve within table bounds. -/
def readInternedUtf (s : St) : Except AbxError (List Nat) × St :=
  match readShort s with
  | (.error e, s1) => (.error e, s1)
  | (.ok index, s1) =>
    if index = 0xFFFF then
      match readUtf s1 with
      | (.ok string, s2) =>
        (.ok string, { s2 with interned := s2.interned ++ [string] })
      | (.error e, s2) => (.error e, s2)
    else
      match s1.interned.get? index with
      | some string => (.ok string, s1)
      | none => (.error (.InvalidInternedStringIndex index), s1)

/-- Embeds `FastDataInput::is_eof`: current position at or past the end. -/
def isEof (s : St) : Bool := decide (s.input.length ≤ s.pos)

/-! ### Frame lemmas for the primitive reads -/

lemma readShort_frame (s : St) :
    (readShort s).2.input = s.input ∧ (readShort s).2.interned = s.interned ∧
    (readShort s).2.collectPolicies = s.collectPolicies ∧
    (readShort s).2.policies = s.policies ∧
    (readShort s).2.restrictionNodeOffset = s.restrictionNodeOffset ∧
    (readShort s).2.alreadyReadRestrictionsUser = s.alreadyReadRestrictionsUser := by
  unfold readShort; split <;> simp

lemma readShort_ok (s : St) (i : Nat) (t : St) (h : readShort s = (.ok i, t)) :
    t = { s with pos := s.pos + 2 } ∧ s.pos + 2 ≤ s.input.length ∧
    i = beNat ((s.input.drop s.pos).take 2) := by
  unfold readShort at h
  split at h
  · simp only [Prod.mk.injEq] at h
    refine ⟨h.2.symm, by assumption, by simpa using h.1.symm⟩
  · simp at h

/-- **C5.** For every interned-string read whose 16-bit index is not the
sentinel `0xFFFF`: if the index is not strictly below the current table
length the read fails with `InvalidInternedStringIndex` reporting that
index and the table is unchanged; if it is in range the read succeeds
and returns the table entry at that index. -/
theorem interned_index_bounds_check (s t : St) (i : Nat)
    (hread : readShort s = (.ok i, t)) (hsent : i ≠ 0xFFFF) :
    ((s.interned.length ≤ i →
        readInternedUtf s = (.error (.InvalidInternedStringIndex i), t) ∧
        t.interned = s.interned) ∧
     (∀ h : i < s.interned.length,
        readInternedUtf s = (.ok (s.interned.get ⟨i, h⟩), t))) := by
  obtain ⟨ht, hle, hi⟩ := readShort_ok s i t hread
  constructor
  · intro hbound
    have hnone : s.interned.get? i = none := by
      rw [List.get?_eq_none]; exact hbound
    constructor
    · unfold readInternedUtf
      rw [hread]
      simp only [hsent, if_neg hsent]
      rw [show t.interned = s.interned by rw [ht]]
      rw [hnone]
      simp
    · rw [ht]
  · intro h
    have hsome : s.interned.get? i = some (s.interned.get ⟨i, h⟩) :=
      List.get?_eq_get h
    unfold readInternedUtf
    rw [hread]
    simp only [if_neg hsent]
    rw [show t.interned = s.interned by rw [ht]]
    rw [hsome]

/-- Witness for C5: index 1 against a one-entry table fails and leaves
the table unchanged; index 0 succeeds with the stored entry. -/
theorem interned_index_bounds_check_witness :
    (readInternedUtf (St.mk [0, 1] 0 [[97]] false [] 0 false)
        = (.error (.InvalidInternedStringIndex 1),
           St.mk [0, 1] 2 [[97]] false [] 0 false)) ∧
    (readInternedUtf (St.mk [0, 0] 0 [[97]] false [] 0 false)
        = (.ok [97], St.mk [0, 0] 2 [[97]] false [] 0 false)) := by
  constructor
  · exact ((interned_index_bounds_check
      (St.mk [0, 1] 0 [[97]] false [] 0 false)
      (St.mk [0, 1] 2 [[97]] false [] 0 false) 1
      (by decide) (by decide)).1 (by decide)).1
  · exact (interned_index_bounds_check
      (St.mk [0, 0] 0 [[97]] false [] 0 false)
      (St.mk [0, 0] 2 [[97]] false [] 0 false) 0
      (by decide) (by decide)).2 (by decide)

/-! ### Interned-string round trip (C4) -/

lemma readUtf_interned (s : St) (r : Except AbxError (List Nat)) (t : St)
    (h : readUtf s = (r, t)) : t.interned = s.interned := by
  unfold readUtf at h
  split at h
  · rename_i e s1 heq
    have hf : s1.interned = s.interned := by
      have h' := (readShort_frame s).2.1
      rw [heq] at h'
      exact h'
    simp only [Prod.mk.injEq] at h
    rw [← h.2]
    exact hf
  · rename_i length s1 heq
    have hf : s1.interned = s.interned := by
      have h' := (readShort_frame s).2.1
      rw [heq] at h'
      exact h'
    split at h
    · split at h <;>
        · simp only [Prod.mk.injEq] at h
          rw [← h.2]
          exact hf
    · simp only [Prod.mk.injEq] at h
      rw [← h.2]
      exact hf

/-- A successful interned read either appends one new string to the
table (sentinel path) or leaves it unchanged (back-reference path). -/
lemma readInternedUtf_append (s : St) (r : List Nat) (t : St)
    (h : readInternedUtf s = (.ok r, t)) :
    ∃ ext, t.interned = s.interned ++ ext := by
  unfold readInternedUtf at h
  split at h
  · simp at h
  · rename_i index s1 heq
    have hf : s1.interned = s.interned := by
      have h' := (readShort_frame s).2.1
      rw [heq] at h'
      exact h'
    split at h
    · split at h
      · rename_i string s2 hutf
        have hf2 := readUtf_interned s1 (.ok string) s2 hutf
        simp only [Prod.mk.injEq] at h
        refine ⟨[string], ?_⟩
        rw [← h.2]
        simp [hf2, hf]
      · simp at h
    · split at h
      · simp only [Prod.mk.injEq] at h
        exact ⟨[], by rw [← h.2]; simp [hf]⟩
      · simp at h

/-- The sentinel (`0xFFFF`) path appends exactly the returned string. -/
lemma readInternedUtf_define (s sl t : St) (str : List Nat)
    (hsent : readShort s = (.ok 65535, sl))
    (h : readInternedUtf s = (.ok str, t)) :
    t.interned = s.interned ++ [str] := by
  have hf : sl.interned = s.interned := by
    have h' := (readShort_frame s).2.1
    rw [hsent] at h'
    exact h'
  unfold readInternedUtf at h
  split at h
  · rename_i e s1 heq
    rw [hsent] at heq
    simp at heq
  · rename_i index s1 heq
    rw [hsent] at heq
    simp only [Prod.mk.injEq, Except.ok.injEq] at heq
    obtain ⟨hidx, hsl⟩ := heq
    subst hidx
    subst hsl
    split at h
    · split at h
      · rename_i string s2 hutf
        have hf2 := readUtf_interned sl (.ok string) s2 hutf
        simp only [Prod.mk.injEq, Except.ok.injEq] at h
        rw [← h.2, ← h.1]
        simp [hf2, hf]
      · simp at h
    · rename_i hc
      exact absurd rfl hc

/-- A back-reference read returns the table entry found at the index. -/
lemma readInternedUtf_lookup (t t1 : St) (n : Nat) (str : List Nat)
    (hidx : readShort t = (.ok n, t1)) (hne : n ≠ 65535)
    (hget : t.interned.get? n = some str) :
    readInternedUtf t = (.ok str, t1) := by
  have hf : t1.interned = t.interned := by
    have h' := (readShort_frame t).2.1
    rw [hidx] at h'
    exact h'
  unfold readInternedUtf
  rw [hidx]
  simp only [if_neg hne]
  rw [hf, hget]

/-- One later interned-string read by the same decoder instance: the
cursor may have been moved arbitrarily by intervening reads (none of
which touch the table), the read succeeds, and the rest of the decoder
state is unconstrained. -/
def internedStep (s t : St) : Prop :=
  ∃ p r u, readInternedUtf { s with pos := p } = (Except.ok r, u) ∧
    u.interned = t.interned

lemma internedStep_append {s t : St} (h : internedStep s t) :
    ∃ ext, t.interned = s.interned ++ ext := by
  obtain ⟨p, r, u, hread, hint⟩ := h
  obtain ⟨ext, hext⟩ := readInternedUtf_append { s with pos := p } r u hread
  exact ⟨ext, by rw [← hint, hext]⟩

lemma reach_append {s t : St} (h : Relation.ReflTransGen internedStep s t) :
    ∃ ext, t.interned = s.interned ++ ext := by
  induction h with
  | refl => exact ⟨[], by simp⟩
  | tail _ hstep ih =>
    obtain ⟨ext1, h1⟩ := ih
    obtain ⟨ext2, h2⟩ := internedStep_append hstep
    exact ⟨ext1 ++ ext2, by rw [h2, h1, List.append_assoc]⟩

/-- **C4.** For every sequence of interned-string reads by one decoder
instance: a read with index `0xFFFF` that defines a new string `str`
(appending it to the table), followed later by a read whose index is
that string's position in the table, returns a string byte-identical to
`str`. -/
theorem interned_string_roundtrip (s sl s1 t t1 : St) (str : List Nat) (q : Nat)
    (hsent : readShort s = (.ok 65535, sl))
    (hdef : readInternedUtf s = (.ok str, s1))
    (hlen : s.interned.length < 65535)
    (hreach : Relation.ReflTransGen internedStep s1 t)
    (hidx : readShort { t with pos := q } = (.ok s.interned.length, t1)) :
    readInternedUtf { t with pos := q } = (.ok str, t1) := by
  have h1 : s1.interned = s.interned ++ [str] :=
    readInternedUtf_define s sl s1 str hsent hdef
  obtain ⟨ext, hext⟩ := reach_append hreach
  have hget : (St.interned { t with pos := q }).get? s.interned.length
      = some str := by
    show t.interned.get? s.interned.length = some str
    rw [hext, h1, List.append_assoc]
    rw [List.get?_append_right (le_refl _)]
    simp
  exact readInternedUtf_lookup { t with pos := q } t1 s.interned.length str
    hidx (by omega) hget

/-- Witness for C4: define `"a"` via the sentinel at position 0, then
reference it as index 0 at position 5 of the same stream. -/
theorem interned_string_roundtrip_witness :
    readInternedUtf (St.mk [255, 255, 0, 1, 97, 0, 0] 5 [[97]] false [] 0 false)
      = (.ok [97], St.mk [255, 255, 0, 1, 97, 0, 0] 7 [[97]] false [] 0 false) :=
  interned_string_roundtrip
    (St.mk [255, 255, 0, 1, 97, 0, 0] 0 [] false [] 0 false)
    (St.mk [255, 255, 0, 1, 97, 0, 0] 2 [] false [] 0 false)
    (St.mk [255, 255, 0, 1, 97, 0, 0] 5 [[97]] false [] 0 false)
    (St.mk [255, 255, 0, 1, 97, 0, 0] 5 [[97]] false [] 0 false)
    (St.mk [255, 255, 0, 1, 97, 0, 0] 7 [[97]] false [] 0 false)
    [97] 5 (by decide) (by decide) (by decide)
    Relation.ReflTransGen.refl (by decide)

/-! ## Output model and text rendering

Each `write!` of the Rust code is modelled as one emitted chunk.  All
renderings are computed at the byte level except `Display` of IEEE
floats, which is kept abstract: a float/double chunk carries the raw bit
pattern read from the stream. -/

inductive Chunk where
  | bytes : List Nat → Chunk
  | floatDisplay : Nat → Chunk
  | doubleDisplay : Nat → Chunk
deriving Repr, DecidableEq

/-- Embeds `str.replace(c, repl)` for a single-character ASCII pattern. -/
def replaceByte (c : Nat) (repl : List Nat) (l : List Nat) : List Nat :=
  (l.map (fun b => if b = c then repl else [b])).join

/-- Embeds `encode_xml_entities` (`src/binary_xml.rs`): the five sequential
single-character replacements, `&` first. -/
def encode_xml_entities (l : List Nat) : List Nat :=
  replaceByte 39 [38, 97, 112, 111, 115, 59]
    (replaceByte 34 [38, 113, 117, 111, 116, 59]
      (replaceByte 62 [38, 103, 116, 59]
        (replaceByte 60 [38, 108, 116, 59]
          (replaceByte 38 [38, 97, 109, 112, 59] l))))

/-- Decimal digit bytes of `n`, most significant first (fuel-indexed;
`n + 1` units of fuel always suffice). -/
def decDigits : Nat → Nat → List Nat
  | 0, _ => []
  | fuel + 1, n => if n < 10 then [48 + n] else decDigits fuel (n / 10) ++ [48 + n % 10]

def natDecBytes (n : Nat) : List Nat := decDigits (n + 1) n

/-- Rust `{}` on a signed integer: optional `-`, then decimal digits. -/
def intDecBytes (i : Int) : List Nat :=
  if i < 0 then 45 :: natDecBytes i.natAbs else natDecBytes i.toNat

def hexDigit (d : Nat) : Nat := if d < 10 then 48 + d else 55 + d

def hexDigits : Nat → Nat → List Nat
  | 0, _ => []
  | fuel + 1, n => if n < 16 then [hexDigit n] else hexDigits fuel (n / 16) ++ [hexDigit (n % 16)]

/-- Rust `{:X}` on an integer: uppercase hex of the unsigned bit
pattern, no leading zeros. -/
def natHexBytes (n : Nat) : List Nat := hexDigits (n + 1) n

/-- Reinterpret a `w`-bit unsigned value as two's-complement signed. -/
def toSigned (w : Nat) (v : Nat) : Int :=
  if v < 2 ^ (w - 1) then (v : Int) else (v : Int) - 2 ^ w

/-- Embeds `hex::encode_upper`. -/
def hexUpperBytes (l : List Nat) : List Nat :=
  (l.map (fun b => [hexDigit (b / 16), hexDigit (b % 16)])).join

def b64Char (d : Nat) : Nat :=
  if d < 26 then 65 + d
  else if d < 52 then 71 + d
  else if d < 62 then d - 4
  else if d = 62 then 43
  else 47

/-- Embeds `base64::engine::general_purpose::STANDARD.encode`: standard
alphabet with `=` padding. -/
def base64Bytes : List Nat → List Nat
  | [] => []
  | [a] => [b64Char (a / 4), b64Char (a % 4 * 16), 61, 61]
  | [a, b] => [b64Char (a / 4), b64Char (a % 4 * 16 + b / 16), b64Char (b % 16 * 4), 61]
  | a :: b :: c :: rest =>
    b64Char (a / 4) :: b64Char (a % 4 * 16 + b / 16) ::
      b64Char (b % 16 * 4 + c / 64) :: b64Char (c % 64) :: base64Bytes rest

/-! ## Token decoder (`src/binary_xml.rs`, `BinaryXmlDeserializer`) -/

/-- Computes `token & 0x0F` on a `u8`. -/
def and0F (b : Nat) : Nat := b % 16

/-- Computes `token & 0xF0` on a `u8`. -/
def andF0 (b : Nat) : Nat := b % 256 / 16 * 16

/-- The value part of `process_attribute`'s dispatch on the type nibble:
read and render one typed attribute value, returning the chunks written
for it.  `TYPE_STRING = 0x20`, `TYPE_STRING_INTERNED = 0x30`,
`TYPE_BYTES_HEX = 0x40`, `TYPE_BYTES_BASE64 = 0x50`, `TYPE_INT = 0x60`,
`TYPE_INT_HEX = 0x70`, `TYPE_LONG = 0x80`, `TYPE_LONG_HEX = 0x90`,
`TYPE_FLOAT = 0xA0`, `TYPE_DOUBLE = 0xB0`, `TYPE_BOOLEAN_TRUE = 0xC0`,
`TYPE_BOOLEAN_FALSE = 0xD0`; anything else is `UnknownAttributeType`. -/
def processAttrValue (typeInfo : Nat) (s : St) :
    Except AbxError (List Chunk) × St :=
  if typeInfo = 0x20 then
    match readUtf s with
    | (.ok value, s1) => (.ok [Chunk.bytes (encode_xml_entities value)], s1)
    | (.error e, s1) => (.error e, s1)
  else if typeInfo = 0x30 then
    match readInternedUtf s with
    | (.ok value, s1) => (.ok [Chunk.bytes (encode_xml_entities value)], s1)
    | (.error e, s1) => (.error e, s1)
  else if typeInfo = 0x60 then
    match readIntRaw s with
    | (.ok v, s1) => (.ok [Chunk.bytes (intDecBytes (toSigned 32 v))], s1)
    | (.error e, s1) => (.error e, s1)
  else if typeInfo = 0x70 then
    match readIntRaw s with
    | (.ok v, s1) => (.ok [Chunk.bytes ([48, 120] ++ natHexBytes v)], s1)
    | (.error e, s1) => (.error e, s1)
  else if typeInfo = 0x80 then
    match readLongRaw s with
    | (.ok v, s1) => (.ok [Chunk.bytes (intDecBytes (toSigned 64 v))], s1)
    | (.error e, s1) => (.error e, s1)
  else if typeInfo = 0x90 then
    match readLongRaw s with
    | (.ok v, s1) => (.ok [Chunk.bytes ([48, 120] ++ natHexBytes v)], s1)
    | (.error e, s1) => (.error e, s1)
  else if typeInfo = 0xA0 then
    match readIntRaw s with
    | (.ok v, s1) => (.ok [Chunk.floatDisplay v], s1)
    | (.error e, s1) => (.error e, s1)
  else if typeInfo = 0xB0 then
    match readLongRaw s with
    | (.ok v, s1) => (.ok [Chunk.doubleDisplay v], s1)
    | (.error e, s1) => (.error e, s1)
  else if typeInfo = 0xC0 then
    (.ok [Chunk.bytes [116, 114, 117, 101]], s)
  else if typeInfo = 0xD0 then
    (.ok [Chunk.bytes [102, 97, 108, 115, 101]], s)
  else if typeInfo = 0x40 then
    match readShort s with
    | (.ok length, s1) =>
      match readBytes length s1 with
      | (.ok bs, s2) => (.ok [Chunk.bytes (hexUpperBytes bs)], s2)
      | (.error e, s2) => (.error e, s2)
    | (.error e, s1) => (.error e, s1)
  else if typeInfo = 0x50 then
    match readShort s with
    | (.ok length, s1) =>
      match readBytes length s1 with
      | (.ok bs, s2) => (.ok [Chunk.bytes (base64Bytes bs)], s2)
      | (.error e, s2) => (.error e, s2)
    | (.error e, s1) => (.error e, s1)
  else
    (.error (.UnknownAttributeType typeInfo), s)

/-- Embeds `BinaryXmlDeserializer::process_attribute`: capture
`tell() as u32 - 1` (wrapping at 0, as in release builds) before reading
anything, read the interned name, emit ` name="`, dispatch on the type
nibble for the value, capture `tell() as u32` as `end_offset`, append a
policy record when collection is enabled, and emit the closing quote. -/
def processAttribute (token : Nat) (s : St) :
    Except AbxError Unit × List Chunk × St :=
  match readInternedUtf s with
  | (.error e, s1) => (.error e, [], s1)
  | (.ok name, s1) =>
    match processAttrValue (andF0 token) s1 with
    | (.error e, s2) => (.error e, [Chunk.bytes (32 :: name ++ [61, 34])], s2)
    | (.ok vchunks, s2) =>
      (.ok (), Chunk.bytes (32 :: name ++ [61, 34]) :: vchunks
        ++ [Chunk.bytes [34]],
       if s2.collectPolicies then
         { s2 with policies := s2.policies
             ++ [Policy.mk name ((s.pos % 4294967296 + 4294967295) % 4294967296)
                   (s2.pos % 4294967296)] }
       else s2)

/-! ### Frame lemmas for the decoder-level fields -/

lemma readByte_frame (s : St) :
    (readByte s).2.interned = s.interned ∧
    (readByte s).2.collectPolicies = s.collectPolicies ∧
    (readByte s).2.policies = s.policies ∧
    (readByte s).2.restrictionNodeOffset = s.restrictionNodeOffset ∧
    (readByte s).2.alreadyReadRestrictionsUser = s.alreadyReadRestrictionsUser := by
  unfold readByte; split <;> simp

lemma readIntRaw_frame (s : St) :
    (readIntRaw s).2.interned = s.interned ∧
    (readIntRaw s).2.collectPolicies = s.collectPolicies ∧
    (readIntRaw s).2.policies = s.policies ∧
    (readIntRaw s).2.restrictionNodeOffset = s.restrictionNodeOffset ∧
    (readIntRaw s).2.alreadyReadRestrictionsUser = s.alreadyReadRestrictionsUser := by
  unfold readIntRaw; split <;> simp

lemma readLongRaw_frame (s : St) :
    (readLongRaw s).2.interned = s.interned ∧
    (readLongRaw s).2.collectPolicies = s.collectPolicies ∧
    (readLongRaw s).2.policies = s.policies ∧
    (readLongRaw s).2.restrictionNodeOffset = s.restrictionNodeOffset ∧
    (readLongRaw s).2.alreadyReadRestrictionsUser = s.alreadyReadRestrictionsUser := by
  unfold readLongRaw; split <;> simp

lemma readBytes_frame (length : Nat) (s : St) :
    ((readBytes length s).2.interned = s.interned ∧
     (readBytes length s).2.collectPolicies = s.collectPolicies ∧
     (readBytes length s).2.policies = s.policies ∧
     (readBytes length s).2.restrictionNodeOffset = s.restrictionNodeOffset ∧
     (readBytes length s).2.alreadyReadRestrictionsUser
        = s.alreadyReadRestrictionsUser) := by
  unfold readBytes; split <;> simp

/-- The `read_utf` method touches only the cursor. -/
lemma readUtf_frame (s : St) :
    (readUtf s).2.collectPolicies = s.collectPolicies ∧
    (readUtf s).2.policies = s.policies ∧
    (readUtf s).2.restrictionNodeOffset = s.restrictionNodeOffset ∧
    (readUtf s).2.alreadyReadRestrictionsUser = s.alreadyReadRestrictionsUser := by
  unfold readUtf
  split
  · rename_i e s1 heq
    have h' := readShort_frame s
    rw [heq] at h'
    exact ⟨h'.2.2.1, h'.2.2.2.1, h'.2.2.2.2.1, h'.2.2.2.2.2⟩
  · rename_i length s1 heq
    have h' := readShort_frame s
    rw [heq] at h'
    split
    · split <;> exact ⟨h'.2.2.1, h'.2.2.2.1, h'.2.2.2.2.1, h'.2.2.2.2.2⟩
    · exact ⟨h'.2.2.1, h'.2.2.2.1, h'.2.2.2.2.1, h'.2.2.2.2.2⟩

/-- The `read_interned_utf` method touches only the cursor and the table. -/
lemma readInternedUtf_frame (s : St) :
    (readInternedUtf s).2.collectPolicies = s.collectPolicies ∧
    (readInternedUtf s).2.policies = s.policies ∧
    (readInternedUtf s).2.restrictionNodeOffset = s.restrictionNodeOffset ∧
    (readInternedUtf s).2.alreadyReadRestrictionsUser
        = s.alreadyReadRestrictionsUser := by
  unfold readInternedUtf
  split
  · rename_i e s1 heq
    have h' := readShort_frame s
    rw [heq] at h'
    exact ⟨h'.2.2.1, h'.2.2.2.1, h'.2.2.2.2.1, h'.2.2.2.2.2⟩
  · rename_i index s1 heq
    have h' := readShort_frame s
    rw [heq] at h'
    split
    · split
      · rename_i string s2 hutf
        have h2 := readUtf_frame s1
        rw [hutf] at h2
        simp only
        exact ⟨h2.1.trans h'.2.2.1, h2.2.1.trans h'.2.2.2.1,
          h2.2.2.1.trans h'.2.2.2.2.1, h2.2.2.2.trans h'.2.2.2.2.2⟩
      · rename_i e s2 hutf
        have h2 := readUtf_frame s1
        rw [hutf] at h2
        exact ⟨h2.1.trans h'.2.2.1, h2.2.1.trans h'.2.2.2.1,
          h2.2.2.1.trans h'.2.2.2.2.1, h2.2.2.2.trans h'.2.2.2.2.2⟩
    · split
      · exact ⟨h'.2.2.1, h'.2.2.2.1, h'.2.2.2.2.1, h'.2.2.2.2.2⟩
      · exact ⟨h'.2.2.1, h'.2.2.2.1, h'.2.2.2.2.1, h'.2.2.2.2.2⟩

/-- All decoder bookkeeping fields agree (the reads touch only the
cursor and the interned table). -/
def decoderFieldsEq (s t : St) : Prop :=
  t.collectPolicies = s.collectPolicies ∧ t.policies = s.policies ∧
  t.restrictionNodeOffset = s.restrictionNodeOffset ∧
  t.alreadyReadRestrictionsUser = s.alreadyReadRestrictionsUser

lemma decoderFieldsEq_refl (s : St) : decoderFieldsEq s s := ⟨rfl, rfl, rfl, rfl⟩

lemma decoderFieldsEq_trans {s t u : St} (h1 : decoderFieldsEq s t)
    (h2 : decoderFieldsEq t u) : decoderFieldsEq s u :=
  ⟨h2.1.trans h1.1, h2.2.1.trans h1.2.1, h2.2.2.1.trans h1.2.2.1,
   h2.2.2.2.trans h1.2.2.2⟩

lemma readShort_fields {s : St} {r : Except AbxError Nat} {t : St}
    (h : readShort s = (r, t)) : decoderFieldsEq s t := by
  have h' := readShort_frame s
  rw [h] at h'
  exact ⟨h'.2.2.1, h'.2.2.2.1, h'.2.2.2.2.1, h'.2.2.2.2.2⟩

lemma readByte_fields {s : St} {r : Except AbxError Nat} {t : St}
    (h : readByte s = (r, t)) : decoderFieldsEq s t := by
  have h' := readByte_frame s
  rw [h] at h'
  exact ⟨h'.2.1, h'.2.2.1, h'.2.2.2.1, h'.2.2.2.2⟩

lemma readIntRaw_fields {s : St} {r : Except AbxError Nat} {t : St}
    (h : readIntRaw s = (r, t)) : decoderFieldsEq s t := by
  have h' := readIntRaw_frame s
  rw [h] at h'
  exact ⟨h'.2.1, h'.2.2.1, h'.2.2.2.1, h'.2.2.2.2⟩

lemma readLongRaw_fields {s : St} {r : Except AbxError Nat} {t : St}
    (h : readLongRaw s = (r, t)) : decoderFieldsEq s t := by
  have h' := readLongRaw_frame s
  rw [h] at h'
  exact ⟨h'.2.1, h'.2.2.1, h'.2.2.2.1, h'.2.2.2.2⟩

lemma readBytes_fields {length : Nat} {s : St} {r : Except AbxError (List Nat)}
    {t : St} (h : readBytes length s = (r, t)) : decoderFieldsEq s t := by
  have h' := readBytes_frame length s
  rw [h] at h'
  exact ⟨h'.2.1, h'.2.2.1, h'.2.2.2.1, h'.2.2.2.2⟩

lemma readUtf_fields {s : St} {r : Except AbxError (List Nat)} {t : St}
    (h : readUtf s = (r, t)) : decoderFieldsEq s t := by
  have h' := readUtf_frame s
  rw [h] at h'
  exact h'

lemma readInternedUtf_fields {s : St} {r : Except AbxError (List Nat)} {t : St}
    (h : readInternedUtf s = (r, t)) : decoderFieldsEq s t := by
  have h' := readInternedUtf_frame s
  rw [h] at h'
  exact h'

lemma processAttrValue_fields {typeInfo : Nat} {s : St}
    {r : Except AbxError (List Chunk)} {t : St}
    (h : processAttrValue typeInfo s = (r, t)) : decoderFieldsEq s t := by
  unfold processAttrValue at h
  by_cases h20 : typeInfo = 0x20
  · simp only [if_pos h20] at h
    split at h <;>
        · rename_i heq
          simp only [Prod.mk.injEq] at h
          exact h.2 ▸ readUtf_fields heq
  simp only [if_neg h20] at h
  by_cases h30 : typeInfo = 0x30
  · simp only [if_pos h30] at h
    split at h <;>
        · rename_i heq
          simp only [Prod.mk.injEq] at h
          exact h.2 ▸ readInternedUtf_fields heq
  simp only [if_neg h30] at h
  by_cases h60 : typeInfo = 0x60
  · simp only [if_pos h60] at h
    split at h <;>
        · rename_i heq
          simp only [Prod.mk.injEq] at h
          exact h.2 ▸ readIntRaw_fields heq
  simp only [if_neg h60] at h
  by_cases h70 : typeInfo = 0x70
  · simp only [if_pos h70] at h
    split at h <;>
        · rename_i heq
          simp only [Prod.mk.injEq] at h
          exact h.2 ▸ readIntRaw_fields heq
  simp only [if_neg h70] at h
  by_cases h80 : typeInfo = 0x80
  · simp only [if_pos h80] at h
    split at h <;>
        · rename_i heq
          simp only [Prod.mk.injEq] at h
          exact h.2 ▸ readLongRaw_fields heq
  simp only [if_neg h80] at h
  by_cases h90 : typeInfo = 0x90
  · simp only [if_pos h90] at h
    split at h <;>
        · rename_i heq
          simp only [Prod.mk.injEq] at h
          exact h.2 ▸ readLongRaw_fields heq
  simp only [if_neg h90] at h
  by_cases hA0 : typeInfo = 0xA0
  · simp only [if_pos hA0] at h
    split at h <;>
        · rename_i heq
          simp only [Prod.mk.injEq] at h
          exact h.2 ▸ readIntRaw_fields heq
  simp only [if_neg hA0] at h
  by_cases hB0 : typeInfo = 0xB0
  · simp only [if_pos hB0] at h
    split at h <;>
        · rename_i heq
          simp only [Prod.mk.injEq] at h
          exact h.2 ▸ readLongRaw_fields heq
  simp only [if_neg hB0] at h
  by_cases hC0 : typeInfo = 0xC0
  · simp only [if_pos hC0] at h
    simp only [Prod.mk.injEq] at h
    exact h.2 ▸ decoderFieldsEq_refl s
  simp only [if_neg hC0] at h
  by_cases hD0 : typeInfo = 0xD0
  · simp only [if_pos hD0] at h
    simp only [Prod.mk.injEq] at h
    exact h.2 ▸ decoderFieldsEq_refl s
  simp only [if_neg hD0] at h
  by_cases h40 : typeInfo = 0x40
  · simp only [if_pos h40] at h
    split at h
    · split at h <;>
          · rename_i x1 l s1 heq1 x2 v s2 heq2
            simp only [Prod.mk.injEq] at h
            exact h.2 ▸ decoderFieldsEq_trans (readShort_fields heq1)
              (readBytes_fields heq2)
    · rename_i heq1
      simp only [Prod.mk.injEq] at h
      exact h.2 ▸ readShort_fields heq1
  simp only [if_neg h40] at h
  by_cases h50 : typeInfo = 0x50
  · simp only [if_pos h50] at h
    split at h
    · split at h <;>
          · rename_i x1 l s1 heq1 x2 v s2 heq2
            simp only [Prod.mk.injEq] at h
            exact h.2 ▸ decoderFieldsEq_trans (readShort_fields heq1)
              (readBytes_fields heq2)
    · rename_i heq1
      simp only [Prod.mk.injEq] at h
      exact h.2 ▸ readShort_fields heq1
  simp only [if_neg h50] at h
  simp only [Prod.mk.injEq] at h
  exact h.2 ▸ decoderFieldsEq_refl s

/-- **C1.** For every attribute token decoded while policy collection is
enabled, exactly one policy record is appended: its `start_offset` is
the stream position of the attribute's token byte (the position queried
just after reading the token byte, minus one) and its `end_offset` is
the stream position immediately after the attribute's value has been
consumed, so `[start_offset, end_offset)` is the exact byte span of the
attribute. -/
theorem process_attribute_records_exact_span (token : Nat) (s : St)
    (out : List Chunk) (s' : St)
    (h : processAttribute token s = (.ok (), out, s'))
    (hc : s.collectPolicies = true)
    (hpos : 1 ≤ s.pos) (hlo : s.pos < 4294967296) (hhi : s'.pos < 4294967296) :
    ∃ name ns, readInternedUtf s = (.ok name, ns) ∧
      s'.policies = s.policies ++ [Policy.mk name (s.pos - 1) s'.pos] := by
  unfold processAttribute at h
  split at h
  · simp at h
  · rename_i name s1 heq
    split at h
    · simp at h
    · rename_i vchunks s2 heq2
      simp only [Prod.mk.injEq] at h
      obtain ⟨-, -, hs'⟩ := h
      have f1 : decoderFieldsEq s s1 := readInternedUtf_fields heq
      have f2 : decoderFieldsEq s1 s2 := processAttrValue_fields heq2
      have hc2 : s2.collectPolicies = true := by
        rw [f2.1, f1.1, hc]
      refine ⟨name, s1, heq, ?_⟩
      rw [← hs']
      simp only [hc2, if_pos]
      have hp2 : s2.policies = s.policies := by rw [f2.2.1, f1.2.1]
      have hpos2 : s2.pos = s'.pos := by
        rw [← hs']
        simp [hc2]
      simp only [hp2]
      have e1 : (s.pos % 4294967296 + 4294967295) % 4294967296 = s.pos - 1 := by
        omega
      have e2 : s2.pos % 4294967296 = s'.pos := by
        rw [hpos2]
        omega
      rw [e1, e2, hpos2]

/-- Witness for C1: a `BOOLEAN_TRUE` attribute token (`0xCF`) at stream
position 0 with its name `"a"` interned inline. -/
theorem process_attribute_records_exact_span_witness :
    ∃ name ns,
      readInternedUtf
          (St.mk [0xCF, 0xFF, 0xFF, 0x00, 0x01, 0x61] 1 [] true [] 0 false)
        = (.ok name, ns) ∧
      (St.mk [0xCF, 0xFF, 0xFF, 0x00, 0x01, 0x61] 6 [[97]] true
          [Policy.mk [97] 0 6] 0 false).policies
        = (St.mk [0xCF, 0xFF, 0xFF, 0x00, 0x01, 0x61] 1 [] true [] 0
            false).policies ++ [Policy.mk name 0 6] :=
  process_attribute_records_exact_span 0xCF
    (St.mk [0xCF, 0xFF, 0xFF, 0x00, 0x01, 0x61] 1 [] true [] 0 false)
    [Chunk.bytes [32, 97, 61, 34], Chunk.bytes [116, 114, 117, 101],
     Chunk.bytes [34]]
    (St.mk [0xCF, 0xFF, 0xFF, 0x00, 0x01, 0x61] 6 [[97]] true
      [Policy.mk [97] 0 6] 0 false)
    (by decide) (by decide) (by decide) (by decide) (by decide)

/-! ### Token dispatch (`process_token`) -/

/-- UTF-8 bytes of `"restrictions"`. -/
def restrictionsBytes : List Nat :=
  [114, 101, 115, 116, 114, 105, 99, 116, 105, 111, 110, 115]

/-- UTF-8 bytes of `"restrictions_user"`. -/
def restrictionsUserBytes : List Nat :=
  [114, 101, 115, 116, 114, 105, 99, 116, 105, 111, 110, 115, 95, 117, 115,
   101, 114]

/-- Second special-case check of the `START_TAG` arm: a
`"restrictions"` tag with the flag set records the current stream
position (just after the tag name) as the restriction insertion
offset. -/
def applyRestrictionsCheck (tag_name : List Nat) (s2 : St) : St :=
  if tag_name = restrictionsBytes ∧ s2.alreadyReadRestrictionsUser = true then
    { s2 with restrictionNodeOffset := s2.pos }
  else s2

/-- The two special-case tag-name checks at the top of the `START_TAG`
arm, in source order: seeing `"restrictions_user"` sets the flag, then
the `"restrictions"` check runs against the updated flag. -/
def applyTagBookkeeping (tag_name : List Nat) (s1 : St) : St :=
  applyRestrictionsCheck tag_name
    (if tag_name = restrictionsUserBytes then
      { s1 with alreadyReadRestrictionsUser := true } else s1)

/-- The attribute lookahead loop inside `START_TAG`: save the position,
read a byte; if its command nibble is `ATTRIBUTE` process the attribute
and continue, otherwise (or on a read error) seek back and stop.
Fuel-indexed; each continuing iteration consumes at least three bytes,
so `input.length + 1` units of fuel (used at the call site) dominate the
iteration count. -/
def attrLoop : Nat → St → Except AbxError Unit × List Chunk × St
  | 0, s => (.ok (), [], s)
  | fuel + 1, s =>
    match readByte s with
    | (.ok b, s1) =>
      if and0F b = 15 then
        match processAttribute b s1 with
        | (.ok _, out, s2) =>
          ((attrLoop fuel s2).1, out ++ (attrLoop fuel s2).2.1,
           (attrLoop fuel s2).2.2)
        | (.error e, out, s2) => (.error e, out, s2)
      else (.ok (), [], { s1 with pos := s.pos })
    | (.error _, s1) => (.ok (), [], { s1 with pos := s.pos })

/-- Embeds `BinaryXmlDeserializer::process_token`: read one token byte and
dispatch on the command nibble (`START_DOCUMENT = 0`, `END_DOCUMENT = 1`,
`START_TAG = 2`, `END_TAG = 3`, `TEXT = 4`, `CDSECT = 5`,
`ENTITY_REF = 6`, `IGNORABLE_WHITESPACE = 7`,
`PROCESSING_INSTRUCTION = 8`, `COMMENT = 9`, `DOCDECL = 10`; `ATTRIBUTE
= 15` has no arm and falls into the warn-and-continue default).  The
returned `Bool` is the `should_continue` flag. -/
def processToken (s : St) : Except AbxError Bool × List Chunk × St :=
  match readByte s with
  | (.error e, s0) => (.error e, [], s0)
  | (.ok token, s0) =>
    if and0F token = 0 then (.ok true, [], s0)
    else if and0F token = 1 then (.ok false, [], s0)
    else if and0F token = 2 then
      match readInternedUtf s0 with
      | (.error e, s1) => (.error e, [], s1)
      | (.ok tag_name, s1) =>
        match attrLoop (s1.input.length + 1) (applyTagBookkeeping tag_name s1) with
        | (.ok _, out, s4) =>
          (.ok true, Chunk.bytes (60 :: tag_name) :: out ++ [Chunk.bytes [62]], s4)
        | (.error e, out, s4) =>
          (.error e, Chunk.bytes (60 :: tag_name) :: out, s4)
    else if and0F token = 3 then
      match readInternedUtf s0 with
      | (.error e, s1) => (.error e, [], s1)
      | (.ok tag_name, s1) =>
        (.ok true, [Chunk.bytes ([60, 47] ++ tag_name ++ [62])], s1)
    else if and0F token = 4 then
      if andF0 token = 0x20 then
        match readUtf s0 with
        | (.error e, s1) => (.error e, [], s1)
        | (.ok text, s1) =>
          (.ok true,
           if text = [] then [] else [Chunk.bytes (encode_xml_entities text)], s1)
      else (.ok true, [], s0)
    else if and0F token = 5 then
      if andF0 token = 0x20 then
        match readUtf s0 with
        | (.error e, s1) => (.error e, [], s1)
        | (.ok text, s1) =>
          (.ok true,
           [Chunk.bytes ([60, 33, 91, 67, 68, 65, 84, 65, 91] ++ text
              ++ [93, 93, 62])], s1)
      else (.ok true, [], s0)
    else if and0F token = 6 then
      if andF0 token = 0x20 then
        match readUtf s0 with
        | (.error e, s1) => (.error e, [], s1)
        | (.ok text, s1) => (.ok true, [Chunk.bytes (38 :: text ++ [59])], s1)
      else (.ok true, [], s0)
    else if and0F token = 7 then
      if andF0 token = 0x20 then
        match readUtf s0 with
        | (.error e, s1) => (.error e, [], s1)
        | (.ok text, s1) => (.ok true, [Chunk.bytes text], s1)
      else (.ok true, [], s0)
    else if and0F token = 8 then
      if andF0 token = 0x20 then
        match readUtf s0 with
        | (.error e, s1) => (.error e, [], s1)
        | (.ok text, s1) =>
          (.ok true, [Chunk.bytes ([60, 63] ++ text ++ [63, 62])], s1)
      else (.ok true, [], s0)
    else if and0F token = 9 then
      if andF0 token = 0x20 then
        match readUtf s0 with
        | (.error e, s1) => (.error e, [], s1)
        | (.ok text, s1) =>
          (.ok true, [Chunk.bytes ([60, 33, 45, 45] ++ text ++ [45, 45, 62])], s1)
      else (.ok true, [], s0)
    else if and0F token = 10 then
      if andF0 token = 0x20 then
        match readUtf s0 with
        | (.error e, s1) => (.error e, [], s1)
        | (.ok text, s1) =>
          (.ok true,
           [Chunk.bytes ([60, 33, 68, 79, 67, 84, 89, 80, 69, 32] ++ text
              ++ [62])], s1)
      else (.ok true, [], s0)
    else (.ok true, [], s0)

/-- **C10.** For every token whose command nibble is `TEXT`, `CDSECT`,
`ENTITY_REF`, `IGNORABLE_WHITESPACE`, `PROCESSING_INSTRUCTION`,
`COMMENT` or `DOCDECL` but whose type nibble is not `STRING` (`0x20`),
the decoder consumes only that one token byte, emits no output, and
continues the loop without error; the typed payload bytes are not read
or skipped, leaving the stream position at the first payload byte. -/
theorem nonstring_typed_tokens_consume_one_byte (s : St) (b : Nat)
    (hget : s.input.get? s.pos = some b)
    (hcmd : and0F b = 4 ∨ and0F b = 5 ∨ and0F b = 6 ∨ and0F b = 7 ∨
            and0F b = 8 ∨ and0F b = 9 ∨ and0F b = 10)
    (hty : andF0 b ≠ 0x20) :
    processToken s = (.ok true, [], { s with pos := s.pos + 1 }) := by
  have hb : readByte s = (.ok b, { s with pos := s.pos + 1 }) := by
    unfold readByte
    rw [hget]
  unfold processToken
  rw [hb]
  rcases hcmd with h | h | h | h | h | h | h <;> simp [h, hty]

/-- Witness for C10: token byte `0x34` (`TEXT` command, type nibble
`0x30`) against a stream holding only that byte. -/
theorem nonstring_typed_tokens_consume_one_byte_witness :
    processToken (St.mk [0x34] 0 [] false [] 0 false)
      = (.ok true, [], St.mk [0x34] 1 [] false [] 0 false) :=
  nonstring_typed_tokens_consume_one_byte
    (St.mk [0x34] 0 [] false [] 0 false) 0x34
    (by decide) (by decide) (by decide)

/-! ### Restriction insertion offset (C6) -/

lemma readByte_ok {s : St} {b : Nat} {t : St}
    (h : readByte s = (.ok b, t)) :
    s.input.get? s.pos = some b ∧ t = { s with pos := s.pos + 1 } := by
  unfold readByte at h
  split at h
  · rename_i b' hget
    simp only [Prod.mk.injEq, Except.ok.injEq] at h
    exact ⟨h.1 ▸ hget, h.2.symm⟩
  · simp at h

lemma applyTag_user (s1 : St) :
    applyTagBookkeeping restrictionsUserBytes s1
      = { s1 with alreadyReadRestrictionsUser := true } := by
  unfold applyTagBookkeeping applyRestrictionsCheck
  rw [if_pos rfl]
  rw [if_neg (fun hc =>
    (by decide : ¬(restrictionsUserBytes = restrictionsBytes)) hc.1)]

lemma applyTag_restr (s1 : St) (hflag : s1.alreadyReadRestrictionsUser = true) :
    applyTagBookkeeping restrictionsBytes s1
      = { s1 with restrictionNodeOffset := s1.pos } := by
  unfold applyTagBookkeeping applyRestrictionsCheck
  rw [if_neg (by decide : ¬(restrictionsBytes = restrictionsUserBytes))]
  rw [if_pos ⟨rfl, hflag⟩]

lemma applyTag_other (tag_name : List Nat) (s1 : St)
    (hu : ¬(tag_name = restrictionsUserBytes))
    (hq : ¬(tag_name = restrictionsBytes ∧
        s1.alreadyReadRestrictionsUser = true)) :
    applyTagBookkeeping tag_name s1 = s1 := by
  unfold applyTagBookkeeping applyRestrictionsCheck
  rw [if_neg hu]
  rw [if_neg hq]

lemma processAttribute_restriction {token : Nat} {s : St}
    {r : Except AbxError Unit} {out : List Chunk} {t : St}
    (h : processAttribute token s = (r, out, t)) :
    t.restrictionNodeOffset = s.restrictionNodeOffset ∧
    t.alreadyReadRestrictionsUser = s.alreadyReadRestrictionsUser := by
  unfold processAttribute at h
  split at h
  · rename_i e s1 heq
    simp only [Prod.mk.injEq] at h
    have hf := readInternedUtf_fields heq
    exact h.2.2 ▸ ⟨hf.2.2.1, hf.2.2.2⟩
  · rename_i name s1 heq
    split at h
    · rename_i e s2 heq2
      simp only [Prod.mk.injEq] at h
      have hf := decoderFieldsEq_trans (readInternedUtf_fields heq)
        (processAttrValue_fields heq2)
      exact h.2.2 ▸ ⟨hf.2.2.1, hf.2.2.2⟩
    · rename_i vch s2 heq2
      simp only [Prod.mk.injEq] at h
      have hf := decoderFieldsEq_trans (readInternedUtf_fields heq)
        (processAttrValue_fields heq2)
      rw [← h.2.2]
      split <;> exact ⟨hf.2.2.1, hf.2.2.2⟩

lemma attrLoop_restriction : ∀ (fuel : Nat) (s : St) (r : Except AbxError Unit)
    (out : List Chunk) (t : St), attrLoop fuel s = (r, out, t) →
    t.restrictionNodeOffset = s.restrictionNodeOffset ∧
    t.alreadyReadRestrictionsUser = s.alreadyReadRestrictionsUser := by
  intro fuel
  induction fuel with
  | zero =>
    intro s r out t h
    unfold attrLoop at h
    simp only [Prod.mk.injEq] at h
    exact h.2.2 ▸ ⟨rfl, rfl⟩
  | succ fuel ih =>
    intro s r out t h
    unfold attrLoop at h
    split at h
    · rename_i x b s1 heqB
      have hf1 := readByte_fields heqB
      split at h
      · split at h
        · rename_i x2 u out1 s2 heqA
          simp only [Prod.mk.injEq] at h
          have hr2 := processAttribute_restriction heqA
          have hr3 := ih s2 (attrLoop fuel s2).1 (attrLoop fuel s2).2.1
            (attrLoop fuel s2).2.2 rfl
          constructor
          · rw [← h.2.2, hr3.1, hr2.1]
            exact hf1.2.2.1
          · rw [← h.2.2, hr3.2, hr2.2]
            exact hf1.2.2.2
        · rename_i x2 e out1 s2 heqA
          simp only [Prod.mk.injEq] at h
          have hr2 := processAttribute_restriction heqA
          constructor
          · rw [← h.2.2, hr2.1]
            exact hf1.2.2.1
          · rw [← h.2.2, hr2.2]
            exact hf1.2.2.2
      · simp only [Prod.mk.injEq] at h
        constructor
        · rw [← h.2.2]
          exact hf1.2.2.1
        · rw [← h.2.2]
          exact hf1.2.2.2
    · rename_i x e s1 heqB
      have hf1 := readByte_fields heqB
      simp only [Prod.mk.injEq] at h
      constructor
      · rw [← h.2.2]
        exact hf1.2.2.1
      · rw [← h.2.2]
        exact hf1.2.2.2

/-- Full case analysis of one `process_token` step with respect to the
restriction bookkeeping: either both fields are untouched, or the token
is a `START_TAG` whose name is one of the two special names, with the
documented effect. -/
lemma processToken_restriction_master (s : St) (r : Except AbxError Bool)
    (out : List Chunk) (s' : St) (h : processToken s = (r, out, s')) :
    (s'.restrictionNodeOffset = s.restrictionNodeOffset ∧
     s'.alreadyReadRestrictionsUser = s.alreadyReadRestrictionsUser) ∨
    (∃ b name ns, s.input.get? s.pos = some b ∧ and0F b = 2 ∧
      readInternedUtf { s with pos := s.pos + 1 } = (Except.ok name, ns) ∧
      ((name = restrictionsUserBytes ∧
        s'.restrictionNodeOffset = s.restrictionNodeOffset ∧
        s'.alreadyReadRestrictionsUser = true) ∨
       (name = restrictionsBytes ∧ s.alreadyReadRestrictionsUser = true ∧
        s'.restrictionNodeOffset = ns.pos ∧
        s'.alreadyReadRestrictionsUser = s.alreadyReadRestrictionsUser))) := by
  unfold processToken at h
  split at h
  · rename_i x e s0 heqB
    left
    simp only [Prod.mk.injEq] at h
    have hf := readByte_fields heqB
    exact h.2.2 ▸ ⟨hf.2.2.1, hf.2.2.2⟩
  · rename_i x token s0 heqB
    have hf0 := readByte_fields heqB
    obtain ⟨hget, hs0⟩ := readByte_ok heqB
    by_cases h0 : and0F token = 0
    · simp only [if_pos h0] at h
      left
      simp only [Prod.mk.injEq] at h
      exact h.2.2 ▸ ⟨hf0.2.2.1, hf0.2.2.2⟩
    simp only [if_neg h0] at h
    by_cases h1 : and0F token = 1
    · simp only [if_pos h1] at h
      left
      simp only [Prod.mk.injEq] at h
      exact h.2.2 ▸ ⟨hf0.2.2.1, hf0.2.2.2⟩
    simp only [if_neg h1] at h
    by_cases h2 : and0F token = 2
    · simp only [if_pos h2] at h
      split at h
      · rename_i x2 e s1 heqI
        left
        simp only [Prod.mk.injEq] at h
        have hf := decoderFieldsEq_trans hf0 (readInternedUtf_fields heqI)
        exact h.2.2 ▸ ⟨hf.2.2.1, hf.2.2.2⟩
      · rename_i x2 tag_name s1 heqI
        have hf1 := decoderFieldsEq_trans hf0 (readInternedUtf_fields heqI)
        have heqI' : readInternedUtf { s with pos := s.pos + 1 }
            = (Except.ok tag_name, s1) := by
          rw [← hs0]
          exact heqI
        by_cases hu : tag_name = restrictionsUserBytes
        · subst hu
          rw [applyTag_user] at h
          have hmain : s'.restrictionNodeOffset = s.restrictionNodeOffset ∧
              s'.alreadyReadRestrictionsUser = true := by
            split at h <;>
              · rename_i x3 v out4 s4 heqL
                simp only [Prod.mk.injEq] at h
                have hr := attrLoop_restriction _ _ _ _ _ heqL
                constructor
                · rw [← h.2.2, hr.1]
                  exact hf1.2.2.1
                · rw [← h.2.2, hr.2]
          right
          exact ⟨token, restrictionsUserBytes, s1, hget, h2, heqI',
            Or.inl ⟨rfl, hmain.1, hmain.2⟩⟩
        by_cases hq : tag_name = restrictionsBytes ∧
            s1.alreadyReadRestrictionsUser = true
        · obtain ⟨htag, hflag1⟩ := hq
          subst htag
          rw [applyTag_restr s1 hflag1] at h
          have hmain : s'.restrictionNodeOffset = s1.pos ∧
              s'.alreadyReadRestrictionsUser = s.alreadyReadRestrictionsUser := by
            split at h <;>
              · rename_i x3 v out4 s4 heqL
                simp only [Prod.mk.injEq] at h
                have hr := attrLoop_restriction _ _ _ _ _ heqL
                constructor
                · rw [← h.2.2, hr.1]
                · rw [← h.2.2, hr.2]
                  exact hf1.2.2.2
          right
          exact ⟨token, restrictionsBytes, s1, hget, h2, heqI',
            Or.inr ⟨rfl, hf1.2.2.2 ▸ hflag1, hmain.1, hmain.2⟩⟩
        · rw [applyTag_other tag_name s1 hu hq] at h
          left
          split at h <;>
            · rename_i x3 v out4 s4 heqL
              simp only [Prod.mk.injEq] at h
              have hr := attrLoop_restriction _ _ _ _ _ heqL
              constructor
              · rw [← h.2.2, hr.1]
                exact hf1.2.2.1
              · rw [← h.2.2, hr.2]
                exact hf1.2.2.2
    simp only [if_neg h2] at h
    by_cases h3 : and0F token = 3
    · simp only [if_pos h3] at h
      split at h <;>
        · rename_i x2 a s1 heqI
          left
          simp only [Prod.mk.injEq] at h
          have hf := decoderFieldsEq_trans hf0 (readInternedUtf_fields heqI)
          exact h.2.2 ▸ ⟨hf.2.2.1, hf.2.2.2⟩
    simp only [if_neg h3] at h
    by_cases h4 : and0F token = 4
    · simp only [if_pos h4] at h
      by_cases hty : andF0 token = 32
      · simp only [if_pos hty] at h
        split at h <;>
          · rename_i x2 a s1 heqU
            left
            simp only [Prod.mk.injEq] at h
            have hf := decoderFieldsEq_trans hf0 (readUtf_fields heqU)
            exact h.2.2 ▸ ⟨hf.2.2.1, hf.2.2.2⟩
      · simp only [if_neg hty] at h
        left
        simp only [Prod.mk.injEq] at h
        exact h.2.2 ▸ ⟨hf0.2.2.1, hf0.2.2.2⟩
    simp only [if_neg h4] at h
    by_cases h5 : and0F token = 5
    · simp only [if_pos h5] at h
      by_cases hty : andF0 token = 32
      · simp only [if_pos hty] at h
        split at h <;>
          · rename_i x2 a s1 heqU
            left
            simp only [Prod.mk.injEq] at h
            have hf := decoderFieldsEq_trans hf0 (readUtf_fields heqU)
            exact h.2.2 ▸ ⟨hf.2.2.1, hf.2.2.2⟩
      · simp only [if_neg hty] at h
        left
        simp only [Prod.mk.injEq] at h
        exact h.2.2 ▸ ⟨hf0.2.2.1, hf0.2.2.2⟩
    simp only [if_neg h5] at h
    by_cases h6 : and0F token = 6
    · simp only [if_pos h6] at h
      by_cases hty : andF0 token = 32
      · simp only [if_pos hty] at h
        split at h <;>
          · rename_i x2 a s1 heqU
            left
            simp only [Prod.mk.injEq] at h
            have hf := decoderFieldsEq_trans hf0 (readUtf_fields heqU)
            exact h.2.2 ▸ ⟨hf.2.2.1, hf.2.2.2⟩
      · simp only [if_neg hty] at h
        left
        simp only [Prod.mk.injEq] at h
        exact h.2.2 ▸ ⟨hf0.2.2.1, hf0.2.2.2⟩
    simp only [if_neg h6] at h
    by_cases h7 : and0F token = 7
    · simp only [if_pos h7] at h
      by_cases hty : andF0 token = 32
      · simp only [if_pos hty] at h
        split at h <;>
          · rename_i x2 a s1 heqU
            left
            simp only [Prod.mk.injEq] at h
            have hf := decoderFieldsEq_trans hf0 (readUtf_fields heqU)
            exact h.2.2 ▸ ⟨hf.2.2.1, hf.2.2.2⟩
      · simp only [if_neg hty] at h
        left
        simp only [Prod.mk.injEq] at h
        exact h.2.2 ▸ ⟨hf0.2.2.1, hf0.2.2.2⟩
    simp only [if_neg h7] at h
    by_cases h8 : and0F token = 8
    · simp only [if_pos h8] at h
      by_cases hty : andF0 token = 32
      · simp only [if_pos hty] at h
        split at h <;>
          · rename_i x2 a s1 heqU
            left
            simp only [Prod.mk.injEq] at h
            have hf := decoderFieldsEq_trans hf0 (readUtf_fields heqU)
            exact h.2.2 ▸ ⟨hf.2.2.1, hf.2.2.2⟩
      · simp only [if_neg hty] at h
        left
        simp only [Prod.mk.injEq] at h
        exact h.2.2 ▸ ⟨hf0.2.2.1, hf0.2.2.2⟩
    simp only [if_neg h8] at h
    by_cases h9 : and0F token = 9
    · simp only [if_pos h9] at h
      by_cases hty : andF0 token = 32
      · simp only [if_pos hty] at h
        split at h <;>
          · rename_i x2 a s1 heqU
            left
            simp only [Prod.mk.injEq] at h
            have hf := decoderFieldsEq_trans hf0 (readUtf_fields heqU)
            exact h.2.2 ▸ ⟨hf.2.2.1, hf.2.2.2⟩
      · simp only [if_neg hty] at h
        left
        simp only [Prod.mk.injEq] at h
        exact h.2.2 ▸ ⟨hf0.2.2.1, hf0.2.2.2⟩
    simp only [if_neg h9] at h
    by_cases h10 : and0F token = 10
    · simp only [if_pos h10] at h
      by_cases hty : andF0 token = 32
      · simp only [if_pos hty] at h
        split at h <;>
          · rename_i x2 a s1 heqU
            left
            simp only [Prod.mk.injEq] at h
            have hf := decoderFieldsEq_trans hf0 (readUtf_fields heqU)
            exact h.2.2 ▸ ⟨hf.2.2.1, hf.2.2.2⟩
      · simp only [if_neg hty] at h
        left
        simp only [Prod.mk.injEq] at h
        exact h.2.2 ▸ ⟨hf0.2.2.1, hf0.2.2.2⟩
    simp only [if_neg h10] at h
    left
    simp only [Prod.mk.injEq] at h
    exact h.2.2 ▸ ⟨hf0.2.2.1, hf0.2.2.2⟩

/-- A qualifying `START_TAG` (`"restrictions"` with the flag already
set) records the after-name position, whatever the previous value. -/
lemma processToken_sets_offset (s : St) (b : Nat) (ns : St)
    (r : Except AbxError Bool) (out : List Chunk) (s' : St)
    (hget : s.input.get? s.pos = some b) (hb : and0F b = 2)
    (hname : readInternedUtf { s with pos := s.pos + 1 }
        = (Except.ok restrictionsBytes, ns))
    (hflag : s.alreadyReadRestrictionsUser = true)
    (h : processToken s = (r, out, s')) :
    s'.restrictionNodeOffset = ns.pos := by
  have hbyte : readByte s = (.ok b, { s with pos := s.pos + 1 }) := by
    unfold readByte
    rw [hget]
  unfold processToken at h
  rw [hbyte] at h
  dsimp only at h
  simp only [hb, show ((2 : Nat) = 0) = False from eq_false (by decide),
    show ((2 : Nat) = 1) = False from eq_false (by decide),
    show ((2 : Nat) = 2) = True from eq_true rfl, if_false, if_true] at h
  rw [hname] at h
  dsimp only at h
  have hnsflag : ns.alreadyReadRestrictionsUser = true := by
    have hf := readInternedUtf_fields hname
    rw [hf.2.2.2]
    exact hflag
  rw [applyTag_restr ns hnsflag] at h
  split at h <;>
    · rename_i x v out4 s4 heqL
      simp only [Prod.mk.injEq] at h
      have hr := attrLoop_restriction _ _ _ _ _ heqL
      rw [← h.2.2, hr.1]

/-- A `START_TAG` named `"restrictions_user"` sets the flag. -/
lemma processToken_sets_flag (s : St) (b : Nat) (ns : St)
    (r : Except AbxError Bool) (out : List Chunk) (s' : St)
    (hget : s.input.get? s.pos = some b) (hb : and0F b = 2)
    (hname : readInternedUtf { s with pos := s.pos + 1 }
        = (Except.ok restrictionsUserBytes, ns))
    (h : processToken s = (r, out, s')) :
    s'.alreadyReadRestrictionsUser = true := by
  have hbyte : readByte s = (.ok b, { s with pos := s.pos + 1 }) := by
    unfold readByte
    rw [hget]
  unfold processToken at h
  rw [hbyte] at h
  dsimp only at h
  simp only [hb, show ((2 : Nat) = 0) = False from eq_false (by decide),
    show ((2 : Nat) = 1) = False from eq_false (by decide),
    show ((2 : Nat) = 2) = True from eq_true rfl, if_false, if_true] at h
  rw [hname] at h
  dsimp only at h
  rw [applyTag_user ns] at h
  split at h <;>
    · rename_i x v out4 s4 heqL
      simp only [Prod.mk.injEq] at h
      have hr := attrLoop_restriction _ _ _ _ _ heqL
      rw [← h.2.2, hr.2]

/-- **C6.** The restriction insertion offset recorded by a decode is the
byte offset immediately after the name of a `START_TAG` named
`"restrictions"` that opens after a `"restrictions_user"` tag has been
seen: (i) a token step changes the offset only for such a qualifying
tag (so a `"restrictions"` seen before any `"restrictions_user"` never
sets it); (ii) every qualifying tag overwrites the recorded value with
its own after-name position; (iii) a `"restrictions_user"` tag sets the
flag, and (iv) the flag is never cleared. -/
theorem restriction_offset_recording (s : St) (r : Except AbxError Bool)
    (out : List Chunk) (s' : St) (h : processToken s = (r, out, s')) :
    ((s'.restrictionNodeOffset = s.restrictionNodeOffset ∧
      s'.alreadyReadRestrictionsUser = s.alreadyReadRestrictionsUser) ∨
     (∃ b name ns, s.input.get? s.pos = some b ∧ and0F b = 2 ∧
       readInternedUtf { s with pos := s.pos + 1 } = (Except.ok name, ns) ∧
       ((name = restrictionsUserBytes ∧
         s'.restrictionNodeOffset = s.restrictionNodeOffset ∧
         s'.alreadyReadRestrictionsUser = true) ∨
        (name = restrictionsBytes ∧ s.alreadyReadRestrictionsUser = true ∧
         s'.restrictionNodeOffset = ns.pos ∧
         s'.alreadyReadRestrictionsUser = s.alreadyReadRestrictionsUser)))) ∧
    (∀ b ns, s.input.get? s.pos = some b → and0F b = 2 →
      readInternedUtf { s with pos := s.pos + 1 }
          = (Except.ok restrictionsBytes, ns) →
      s.alreadyReadRestrictionsUser = true →
      s'.restrictionNodeOffset = ns.pos) ∧
    (∀ b ns, s.input.get? s.pos = some b → and0F b = 2 →
      readInternedUtf { s with pos := s.pos + 1 }
          = (Except.ok restrictionsUserBytes, ns) →
      s'.alreadyReadRestrictionsUser = true) ∧
    (s.alreadyReadRestrictionsUser = true →
      s'.alreadyReadRestrictionsUser = true) := by
  refine ⟨processToken_restriction_master s r out s' h, ?_, ?_, ?_⟩
  · intro b ns hget hb hname hflag
    exact processToken_sets_offset s b ns r out s' hget hb hname hflag h
  · intro b ns hget hb hname
    exact processToken_sets_flag s b ns r out s' hget hb hname h
  · intro hflag
    rcases processToken_restriction_master s r out s' h with
      ⟨-, hfl⟩ | ⟨b, name, ns, -, -, -, hcase⟩
    · rw [hfl]
      exact hflag
    · rcases hcase with ⟨-, -, hfl⟩ | ⟨-, -, -, hfl⟩
      · exact hfl
      · rw [hfl]
        exact hflag

/-- Witness for C6: a `START_TAG` named `"restrictions"` decoded while
the flag is already set records offset 17 (the position right after the
tag name). -/
theorem restriction_offset_recording_witness :
    (St.mk ([2, 255, 255, 0, 12] ++ restrictionsBytes) 17 [restrictionsBytes]
        false [] 17 true).restrictionNodeOffset
      = (St.mk ([2, 255, 255, 0, 12] ++ restrictionsBytes) 17
          [restrictionsBytes] false [] 0 true).pos :=
  (restriction_offset_recording
      (St.mk ([2, 255, 255, 0, 12] ++ restrictionsBytes) 0 [] false [] 0 true)
      (Except.ok true)
      [Chunk.bytes (60 :: restrictionsBytes), Chunk.bytes [62]]
      (St.mk ([2, 255, 255, 0, 12] ++ restrictionsBytes) 17 [restrictionsBytes]
        false [] 17 true)
      (by decide)).2.1 2
    (St.mk ([2, 255, 255, 0, 12] ++ restrictionsBytes) 17 [restrictionsBytes]
      false [] 0 true)
    (by decide) (by decide) (by decide) (by decide)

/-! ## Top-level decode loop and construction -/

/-- Bytes of the XML declaration written before the first token. -/
def xmlHeaderBytes : List Nat :=
  [60, 63, 120, 109, 108, 32, 118, 101, 114, 115, 105, 111, 110, 61, 34, 49,
   46, 48, 34, 32, 101, 110, 99, 111, 100, 105, 110, 103, 61, 34, 85, 84, 70,
   45, 56, 34, 63, 62]

/-- The `while !is_eof` loop of `deserialize`: process tokens until
end-of-source, `END_DOCUMENT` (`should_continue = false`), or a token
error, which is caught (logged in the source) and terminates the loop
early, keeping everything already written.  Fuel-indexed; each iteration
consumes at least one byte, so `input.length + 1` units dominate. -/
def deserializeLoop : Nat → St → List Chunk × St
  | 0, s => ([], s)
  | fuel + 1, s =>
    if isEof s then ([], s)
    else
      match processToken s with
      | (.ok true, out, s') =>
        (out ++ (deserializeLoop fuel s').1, (deserializeLoop fuel s').2)
      | (.ok false, out, s') => (out, s')
      | (.error _, out, s') => (out, s')

/-- Embeds `BinaryXmlDeserializer::deserialize`: write the XML declaration,
run the token loop, and return `Ok(())` regardless of how the loop
stopped (the output sink is modelled as infallible, so the only error
source of the Rust function — a failing `write!` — cannot occur). -/
def deserialize (s : St) : Except AbxError (List Chunk × St) :=
  .ok (Chunk.bytes xmlHeaderBytes :: (deserializeLoop (s.input.length + 1) s).1,
       (deserializeLoop (s.input.length + 1) s).2)

/-- **C3.** For every input stream, if processing a token inside the
decode loop returns an error, the loop catches it, stops, and leaves all
output already written in place (including the failing token's partial
output), and `deserialize` still returns a success result — per-token
errors are never propagated to its caller. -/
theorem deserialize_catches_token_errors :
    (∀ s : St, ∃ res, deserialize s = Except.ok res) ∧
    (∀ (fuel : Nat) (s : St) (e : AbxError) (out : List Chunk) (s' : St),
      isEof s = false → processToken s = (.error e, out, s') →
      deserializeLoop (fuel + 1) s = (out, s')) := by
  constructor
  · intro s
    exact ⟨_, rfl⟩
  · intro fuel s e out s' heof hproc
    unfold deserializeLoop
    rw [if_neg (by rw [heof]; exact Bool.false_ne_true)]
    rw [hproc]

/-- Witness for C3: a stream whose first token is a `START_TAG` with an
unresolvable interned index; the loop stops at once with the error state
and `deserialize` still succeeds. -/
theorem deserialize_catches_token_errors_witness :
    (∃ res, deserialize (St.mk [2, 0, 5] 0 [] true [] 0 false)
        = Except.ok res) ∧
    deserializeLoop 1 (St.mk [2, 0, 5] 0 [] true [] 0 false)
      = ([], St.mk [2, 0, 5] 3 [] true [] 0 false) := by
  constructor
  · exact deserialize_catches_token_errors.1 _
  · exact deserialize_catches_token_errors.2 0 _
      (AbxError.InvalidInternedStringIndex 5) [] _ (by decide) (by decide)

/-- Embeds `BinaryXmlDeserializer::new`: read the first four bytes and require
them to equal the protocol magic before anything else happens. -/
def bxdNew (input : List Nat) (collectPolicies : Bool) : Except AbxError St :=
  if 4 ≤ input.length then
    if input.take 4 = PROTOCOL_MAGIC_VERSION_0 then
      .ok (St.mk input 4 [] collectPolicies [] 0 false)
    else .error (.InvalidMagicHeader PROTOCOL_MAGIC_VERSION_0 (input.take 4))
  else .error (.ReadError ("magic header"))

/-- **C9.** Construction reads exactly the first four bytes and fails
with a hard error — before any token is processed and before any output
is written — unless they equal `0x41 0x42 0x58 0x00`; when they do,
construction succeeds with the cursor at offset 4 and empty decoder
state. -/
theorem magic_header_gate (input : List Nat) (c : Bool) :
    ((∃ st, bxdNew input c = Except.ok st) ↔
        input.take 4 = PROTOCOL_MAGIC_VERSION_0) ∧
    (∀ st, bxdNew input c = Except.ok st →
        st = St.mk input 4 [] c [] 0 false) ∧
    (input.take 4 ≠ PROTOCOL_MAGIC_VERSION_0 →
        ∃ e, bxdNew input c = Except.error e) := by
  unfold bxdNew
  by_cases hlen : 4 ≤ input.length
  · by_cases hmag : input.take 4 = PROTOCOL_MAGIC_VERSION_0
    · rw [if_pos hlen, if_pos hmag]
      refine ⟨⟨fun _ => hmag, fun _ => ⟨_, rfl⟩⟩, ?_, fun hne => absurd hmag hne⟩
      intro st hst
      simp only [Except.ok.injEq] at hst
      exact hst.symm
    · rw [if_pos hlen, if_neg hmag]
      exact ⟨⟨fun ⟨st, hst⟩ => by simp at hst, fun hm => absurd hm hmag⟩,
        fun st hst => by simp at hst, fun _ => ⟨_, rfl⟩⟩
  · have hmag : ¬(input.take 4 = PROTOCOL_MAGIC_VERSION_0) := by
      intro hcontra
      have := congrArg List.length hcontra
      simp [List.length_take, PROTOCOL_MAGIC_VERSION_0] at this
      omega
    rw [if_neg hlen]
    exact ⟨⟨fun ⟨st, hst⟩ => by simp at hst, fun hm => absurd hm hmag⟩,
      fun st hst => by simp at hst, fun _ => ⟨_, rfl⟩⟩

/-- Witness for C9: a correct magic header yields the initial state with
the cursor at 4; a wrong header yields an error. -/
theorem magic_header_gate_witness :
    bxdNew [65, 66, 88, 0, 9] true
      = Except.ok (St.mk [65, 66, 88, 0, 9] 4 [] true [] 0 false) ∧
    (∃ e, bxdNew [9, 9, 9, 9] true = Except.error e) := by
  constructor
  · obtain ⟨st, hst⟩ := (magic_header_gate [65, 66, 88, 0, 9] true).1.mpr
      (by decide)
    have h2 := (magic_header_gate [65, 66, 88, 0, 9] true).2.1 st hst
    rw [h2] at hst
    exact hst
  · exact (magic_header_gate [9, 9, 9, 9] true).2.2 (by decide)

/-! ## Offset patcher (`src/main.rs`) -/

/-- Embeds `policy_to_bytes`: three fixed framing bytes `0xCF 0xFF 0xFF`, the
name's byte length as a big-endian `u16`, then the name bytes. -/
def policy_to_bytes (policy_name : List Nat) : List Nat :=
  [0xCF, 0xFF, 0xFF]
    ++ [policy_name.length % 65536 / 256, policy_name.length % 256]
    ++ policy_name

/-- The trailing-counter step of the insertion branch of `main`:
`buffer[len - 5] = buffer[len - 5].wrapping_add(1)` when `len >= 5`. -/
def incrFifthLast (b : List Nat) : List Nat :=
  if 5 ≤ b.length then
    b.set (b.length - 5) ((b.getD (b.length - 5) 0 + 1) % 256)
  else b

/-- The trailing-counter step of the removal branch of `main`:
`buffer[len - 5] = buffer[len - 5].wrapping_sub(1)` when `len >= 5`. -/
def decrFifthLast (b : List Nat) : List Nat :=
  if 5 ≤ b.length then
    b.set (b.length - 5) ((b.getD (b.length - 5) 0 + 255) % 256)
  else b

/-- The insertion branch of `main`: splice the serialized attribute node
into the buffer at the recorded restriction insertion offset, then bump
the trailing counter. -/
def insertPolicyBytes (buffer : List Nat) (offset : Nat)
    (policy_name : List Nat) : List Nat :=
  incrFifthLast (buffer.take offset ++ policy_to_bytes policy_name
    ++ buffer.drop offset)

/-- The removal branch of `main`:
`buffer.drain(start_offset..end_offset)` then decrement the trailing
counter. -/
def removePolicyBytes (buffer : List Nat) (start_offset end_offset : Nat) :
    List Nat :=
  decrFifthLast (buffer.take start_offset ++ buffer.drop end_offset)

lemma set_append_right_of_le (l1 l2 : List Nat) (i a : Nat)
    (h : l1.length ≤ i) :
    (l1 ++ l2).set i a = l1 ++ l2.set (i - l1.length) a := by
  induction l1 generalizing i with
  | nil => simp
  | cons hd tl ih =>
    cases i with
    | zero => simp at h
    | succ i =>
      simp only [List.cons_append, List.set, List.length_cons]
      have hidx : i + 1 - (tl.length + 1) = i - tl.length := by omega
      rw [hidx, show tl.append l2 = tl ++ l2 from rfl, ih i (by simpa using h)]

lemma getD_append_right_of_le (l1 l2 : List Nat) (i : Nat)
    (h : l1.length ≤ i) :
    (l1 ++ l2).getD i 0 = l2.getD (i - l1.length) 0 := by
  induction l1 generalizing i with
  | nil => simp
  | cons hd tl ih =>
    cases i with
    | zero => simp at h
    | succ i =>
      simp only [List.cons_append, List.getD_cons_succ, List.length_cons]
      have hidx : i + 1 - (tl.length + 1) = i - tl.length := by omega
      rw [hidx, ih i (by simpa using h)]

lemma get?_set_ne_helper : ∀ (l : List Nat) (i j a : Nat), i ≠ j →
    (l.set i a).get? j = l.get? j := by
  intro l
  induction l with
  | nil => intro i j a hij; simp
  | cons hd tl ih =>
    intro i j a hij
    cases i with
    | zero =>
      cases j with
      | zero => exact absurd rfl hij
      | succ j => simp
    | succ i =>
      cases j with
      | zero => simp
      | succ j =>
        simp only [List.set, List.get?_cons_succ]
        exact ih i j a (fun hc => hij (by rw [hc]))

lemma get?_set_self_helper : ∀ (l : List Nat) (i a : Nat), i < l.length →
    (l.set i a).get? i = some a := by
  intro l
  induction l with
  | nil => intro i a hi; simp at hi
  | cons hd tl ih =>
    intro i a hi
    cases i with
    | zero => simp
    | succ i =>
      simp only [List.set, List.get?_cons_succ]
      exact ih i a (by simpa using hi)

/-- **C7.** For every policy name, the serialized attribute node equals
`0xCF 0xFF 0xFF`, the name's byte length as a big-endian 16-bit integer,
then the name bytes; insertion splices exactly those `5 + len` bytes in
at the recorded offset (growing the buffer by exactly that much) and
increments the byte at position 5-from-the-end of the resulting buffer
by one, wrapping on overflow. -/
theorem policy_insertion_layout (buffer policy_name : List Nat) (offset : Nat)
    (hoff : offset + 5 ≤ buffer.length) :
    policy_to_bytes policy_name
      = [0xCF, 0xFF, 0xFF] ++ [policy_name.length % 65536 / 256,
          policy_name.length % 256] ++ policy_name ∧
    (insertPolicyBytes buffer offset policy_name).length
      = buffer.length + (5 + policy_name.length) ∧
    insertPolicyBytes buffer offset policy_name
      = buffer.take offset ++ policy_to_bytes policy_name
        ++ (buffer.drop offset).set (buffer.length - offset - 5)
            (((buffer.drop offset).getD (buffer.length - offset - 5) 0 + 1)
              % 256) := by
  have htake : (buffer.take offset).length = offset := by
    rw [List.length_take]
    omega
  have hpol : (policy_to_bytes policy_name).length = 5 + policy_name.length := by
    simp [policy_to_bytes]
    omega
  have hstot : (buffer.take offset ++ policy_to_bytes policy_name
      ++ buffer.drop offset).length = buffer.length + (5 + policy_name.length) := by
    simp only [List.length_append, htake, hpol, List.length_drop]
    omega
  have hA : (buffer.take offset ++ policy_to_bytes policy_name).length
      = offset + (5 + policy_name.length) := by
    rw [List.length_append, htake, hpol]
  refine ⟨rfl, ?_, ?_⟩
  · unfold insertPolicyBytes incrFifthLast
    rw [if_pos (by rw [hstot]; omega)]
    rw [List.length_set, hstot]
  · unfold insertPolicyBytes incrFifthLast
    rw [if_pos (by rw [hstot]; omega)]
    rw [hstot]
    have hge : (buffer.take offset ++ policy_to_bytes policy_name).length
        ≤ buffer.length + (5 + policy_name.length) - 5 := by
      rw [hA]
      omega
    rw [getD_append_right_of_le _ _ _ hge]
    rw [set_append_right_of_le _ _ _ _ hge]
    rw [hA]
    have hidx : buffer.length + (5 + policy_name.length) - 5
        - (offset + (5 + policy_name.length)) = buffer.length - offset - 5 := by
      omega
    rw [hidx]

/-- Witness for C7: inserting a 2-byte name at offset 2 of a 10-byte
buffer grows it by exactly 7 bytes. -/
theorem policy_insertion_layout_witness :
    (insertPolicyBytes [1, 2, 3, 4, 5, 6, 7, 8, 9, 10] 2 [110, 111]).length
      = ([1, 2, 3, 4, 5, 6, 7, 8, 9, 10] : List Nat).length
        + (5 + ([110, 111] : List Nat).length) :=
  (policy_insertion_layout [1, 2, 3, 4, 5, 6, 7, 8, 9, 10] [110, 111] 2
    (by decide)).2.1

/-- **C8.** For every buffer and policy record with
`start_offset ≤ end_offset ≤ buffer.length`, removal deletes exactly the
byte range `[start_offset, end_offset)` — the result is the bytes before
`start_offset` followed by the bytes from `end_offset` on — and
decrements the byte at position 5-from-the-end of the resulting buffer
by one, wrapping on underflow. -/
theorem policy_removal_deletes_range (buffer : List Nat)
    (start_offset end_offset : Nat) (hse : start_offset ≤ end_offset)
    (heb : end_offset ≤ buffer.length)
    (hmin : 5 ≤ buffer.length - (end_offset - start_offset)) :
    (removePolicyBytes buffer start_offset end_offset).length
      = buffer.length - (end_offset - start_offset) ∧
    (∀ i, i ≠ buffer.length - (end_offset - start_offset) - 5 →
      (removePolicyBytes buffer start_offset end_offset).get? i
        = (buffer.take start_offset ++ buffer.drop end_offset).get? i) ∧
    (removePolicyBytes buffer start_offset end_offset).get?
        (buffer.length - (end_offset - start_offset) - 5)
      = some (((buffer.take start_offset ++ buffer.drop end_offset).getD
          (buffer.length - (end_offset - start_offset) - 5) 0 + 255) % 256) := by
  have hkept : (buffer.take start_offset ++ buffer.drop end_offset).length
      = buffer.length - (end_offset - start_offset) := by
    simp only [List.length_append, List.length_take, List.length_drop]
    omega
  unfold removePolicyBytes decrFifthLast
  rw [if_pos (by rw [hkept]; omega)]
  rw [hkept]
  refine ⟨?_, ?_, ?_⟩
  · rw [List.length_set, hkept]
  · intro i hi
    exact get?_set_ne_helper _ _ _ _ (fun hc => hi (by rw [hc]))
  · exact get?_set_self_helper _ _ _ (by rw [hkept]; omega)

/-- Witness for C8: removing bytes `[2, 5)` of a 10-byte buffer yields a
7-byte buffer. -/
theorem policy_removal_deletes_range_witness :
    (removePolicyBytes [1, 2, 3, 4, 5, 6, 7, 8, 9, 10] 2 5).length
      = ([1, 2, 3, 4, 5, 6, 7, 8, 9, 10] : List Nat).length - (5 - 2) :=
  (policy_removal_deletes_range [1, 2, 3, 4, 5, 6, 7, 8, 9, 10] 2 5
    (by decide) (by decide) (by decide)).1

end Honeycomb
